import Mathlib

/-!
# Verification of the `nod` signal/slot library (`include/nod/nod.hpp`)

Shallow embedding of the `nod` signal/slot mechanism.

* A slot is a `std::function<R(A...)>`; an empty `std::function` is the
  tombstone left behind by disconnection.  We model a stored slot as
  `Option (α → ρ)`: `none` is the empty callable, `some f` a live callable.
* `signal_type::_slots` is a `std::vector<slot_type>`, modelled as
  `List (Option (α → ρ))`.
* The threading policy only supplies (possibly no-op) locks and a yield
  operation; the sequential semantics of every member function is the
  same under both policies, so the embedding models the critical sections
  as atomic functions on the slot list.
-/

namespace Nod

variable {α ρ T : Type}

/-- The trailing-trim loop of `signal_type::disconnect`:

```cpp
while( _slots.size()>0 && !_slots.back() ) \x7b _slots.pop_back(); \x7d
```

Popping from the back while the last element is empty is, on the reversed
list, dropping from the front while the first element is empty.
`dropWhileNone` is that front loop. -/
def dropWhileNone : List (Option σ) → List (Option σ)
  | none :: xs => dropWhileNone xs
  | some f :: xs => some f :: xs
  | [] => []

/-- The trailing-trim loop itself: `pop_back` while the vector is non-empty
and its back is the empty callable. -/
def popBackWhileNone (l : List (Option σ)) : List (Option σ) :=
  (dropWhileNone l.reverse).reverse

/-- Helper for the structural characterisation of trimming: re-attach a
head element to an already-trimmed tail. -/
def consTrim (x : Option σ) : List (Option σ) → List (Option σ)
  | [] =>
    match x with
    | none => []
    | some f => [some f]
  | y :: ys => x :: y :: ys

/-- Structural characterisation of `popBackWhileNone`, convenient for
induction: remove the longest all-`none` suffix. -/
def trimTrailing : List (Option σ) → List (Option σ)
  | [] => []
  | x :: xs => consTrim x (trimTrailing xs)

theorem trimTrailing_concat_none (xs : List (Option σ)) :
    trimTrailing (xs ++ [none]) = trimTrailing xs := by
  induction xs with
  | nil => rfl
  | cons x xs ih =>
    simp only [List.cons_append, trimTrailing, List.append_eq, ih]

theorem trimTrailing_concat_some (xs : List (Option σ)) (f : σ) :
    trimTrailing (xs ++ [some f]) = xs ++ [some f] := by
  induction xs with
  | nil => rfl
  | cons x xs ih =>
    simp only [List.cons_append, trimTrailing, List.append_eq, ih]
    cases xs <;> rfl

theorem popBackWhileNone_eq_trimTrailing (l : List (Option σ)) :
    popBackWhileNone l = trimTrailing l := by
  induction l using List.reverseRecOn with
  | nil => rfl
  | append_singleton xs x ih =>
    cases x with
    | none =>
      rw [trimTrailing_concat_none, ← ih]
      simp [popBackWhileNone, dropWhileNone]
    | some f =>
      rw [trimTrailing_concat_some]
      simp [popBackWhileNone, dropWhileNone]

theorem trimTrailing_length_le (l : List (Option σ)) :
    (trimTrailing l).length ≤ l.length := by
  induction l with
  | nil => exact Nat.le_refl _
  | cons x xs ih =>
    simp only [trimTrailing]
    cases hxs : trimTrailing xs with
    | nil =>
      cases x with
      | none => simp [consTrim]
      | some f => simp [consTrim]
    | cons y ys =>
      rw [hxs] at ih
      simp only [consTrim, List.length_cons] at ih ⊢
      exact Nat.succ_le_succ ih

/-- Trimming only removes elements from the tail: whatever is left sits at
its old position with its old value. -/
theorem trimTrailing_getElem? (l : List (Option σ)) (i : Nat) (v : Option σ)
    (h : (trimTrailing l)[i]? = some v) : l[i]? = some v := by
  induction l generalizing i with
  | nil => simp [trimTrailing] at h
  | cons x xs ih =>
    simp only [trimTrailing] at h
    rcases hxs : trimTrailing xs with _ | ⟨y, ys⟩ <;> rw [hxs] at h
    · cases x with
      | none => simp [consTrim] at h
      | some f =>
        cases i with
        | zero =>
          simp only [consTrim, List.getElem?_cons_zero, Option.some.injEq] at h
          simp [← h]
        | succ j => simp [consTrim] at h
    · simp only [consTrim] at h
      cases i with
      | zero =>
        simp only [List.getElem?_cons_zero, Option.some.injEq] at h ⊢
        exact h
      | succ j =>
        simp only [List.getElem?_cons_succ] at h ⊢
        exact ih j (by rw [hxs]; exact h)

/-- Trimming never removes a live (non-empty) slot: a `some f` entry
survives at its old index. -/
theorem trimTrailing_getElem?_some (l : List (Option σ)) (i : Nat) (f : σ)
    (h : l[i]? = some (some f)) : (trimTrailing l)[i]? = some (some f) := by
  induction l generalizing i with
  | nil => simp at h
  | cons x xs ih =>
    cases i with
    | zero =>
      simp only [List.getElem?_cons_zero, Option.some.injEq] at h
      subst h
      simp only [trimTrailing]
      cases hxs : trimTrailing xs with
      | nil => rfl
      | cons y ys => rfl
    | succ j =>
      simp only [List.getElem?_cons_succ] at h
      have htail := ih j h
      simp only [trimTrailing]
      cases hxs : trimTrailing xs with
      | nil => rw [hxs] at htail; simp at htail
      | cons y ys =>
        rw [hxs] at htail
        simpa [consTrim] using htail

/-- The trimmed list never ends in a tombstone. -/
theorem trimTrailing_getLast? (l : List (Option σ)) :
    (trimTrailing l).getLast? ≠ some none := by
  induction l with
  | nil => simp [trimTrailing]
  | cons x xs ih =>
    simp only [trimTrailing]
    cases hxs : trimTrailing xs with
    | nil =>
      cases x with
      | none => simp [consTrim]
      | some f => simp [consTrim]
    | cons y ys =>
      rw [hxs] at ih
      simpa [consTrim, List.getLast?_cons_cons] using ih

/-! ## The signal operations (`signal_type`, nod.hpp lines 321-515)

`signal_type<P, R(A...)>` owns `_slots : std::vector<std::function<R(A...)>>`.
The member functions below are modelled on the slot vector; the mutex
acquisition at the top of each member is the no-op of a sequential model. -/

/-- `signal_type::disconnect(index)` (lines 461-468):

```cpp
mutex_lock_type lock( _mutex );
assert( _slots.size() > index );
_slots[ index ] = slot_type\x7b\x7d;
while( _slots.size()>0 && !_slots.back() ) \x7b _slots.pop_back(); \x7d
```

The `assert` is modelled as the `none` result: `none` means the assertion
fired (the index was not strictly below the vector size). -/
def signal_type.disconnect (slots : List (Option (α → ρ))) (index : Nat) :
    Option (List (Option (α → ρ))) :=
  if index < slots.length then
    some (popBackWhileNone (slots.set index none))
  else
    none

theorem signal_type.disconnect_eq (slots : List (Option (α → ρ))) (index : Nat) :
    signal_type.disconnect slots index =
      if index < slots.length then some (trimTrailing (slots.set index none)) else none := by
  simp [signal_type.disconnect, popBackWhileNone_eq_trimTrailing]

/-- `signal_type::connect(slot)` (lines 366-375): push the slot, remember
`index = _slots.size()-1`, return the new slot vector together with the
index stored in the minted `connection`. -/
def signal_type.connect (slots : List (Option (α → ρ))) (slot : α → ρ) :
    List (Option (α → ρ)) × Nat :=
  let slots2 := slots ++ [some slot]
  (slots2, slots2.length - 1)

/-- `signal_type::operator()(args...)` (lines 387-394):

```cpp
for( auto const& slot : _slots ) \x7b
    if( slot ) \x7b slot( args... ); \x7d
\x7d
```

The C++ operator returns `void`; its observable behaviour is the sequence
of slot invocations, so the model returns the list of results of the calls
that were performed, in the order they were performed. -/
def signal_type.call (a : α) : List (Option (α → ρ)) → List ρ
  | [] => []
  | none :: rest => signal_type.call a rest
  | some f :: rest => f a :: signal_type.call a rest

/-- Instrumented version of `signal_type::operator()`: the loop of
`signal_type.call` additionally records, for each performed call, the index
of the slot that was invoked and the argument it was passed.  `i` is the
index of the first element of the remaining slot list. -/
def signal_type.callTrace (a : α) : Nat → List (Option (α → ρ)) → List (Nat × α × ρ)
  | _, [] => []
  | i, none :: rest => signal_type.callTrace a (i + 1) rest
  | i, some f :: rest => (i, a, f a) :: signal_type.callTrace a (i + 1) rest

/-- `signal_type::trigger_with_accumulator(value, func, args...)`
(lines 444-453):

```cpp
for( auto const& slot : _slots ) \x7b
    if( slot ) \x7b value = func( value, slot( args... ) ); \x7d
\x7d
return value;
```
-/
def signal_type.trigger_with_accumulator (value : T) (func : T → ρ → T) (a : α) :
    List (Option (α → ρ)) → T
  | [] => value
  | none :: rest => signal_type.trigger_with_accumulator value func a rest
  | some f :: rest => signal_type.trigger_with_accumulator (func value (f a)) func a rest

/-- `signal_accumulator<S,T,F,A...>` (lines 241-297): a proxy holding a
reference to the signal (modelled by its slot vector), the initial value
and the binary accumulation function. -/
structure signal_accumulator (α ρ T : Type) where
  _signal : List (Option (α → ρ))
  _init : T
  _func : T → ρ → T

/-- `signal_accumulator::operator()(args...)` (lines 284-286): delegate to
`signal_type::trigger_with_accumulator(_init, _func, args...)`. -/
def signal_accumulator.callOp (acc : signal_accumulator α ρ T) (a : α) : T :=
  signal_type.trigger_with_accumulator acc._init acc._func a acc._signal

/-- `signal_type::accumulate(init, op)` (lines 429-433): build the proxy
`\x7b *this, init, op \x7d`. -/
def signal_type.accumulate (slots : List (Option (α → ρ))) (init : T) (op : T → ρ → T) :
    signal_accumulator α ρ T :=
  ⟨slots, init, op⟩

/-- The live (non-tombstone) slots of a slot vector, in vector order. -/
def liveSlots (slots : List (Option (α → ρ))) : List (α → ρ) :=
  slots.filterMap id

/-! ## Connections and signal lifetime (`connection`, lines 38-97 and 518-524)

A `connection` holds `_weak_disconnector : std::weak_ptr<detail::disconnector>`
and `_index : std::size_t`.  The weak pointer is either empty (default
construction, moved-from state, or after `_weak_disconnector.reset()`), or it
refers to the one shared disconnector record of the signal that minted the
connection; in the latter case it locks successfully exactly while that
signal has not dropped its strong reference (i.e. has not been destroyed).
`WeakDisc` records those two shapes, and `SignalWorld` carries the
liveness bit and the slot vector of the (single) signal under study. -/

inductive WeakDisc
  | empty
  | toSignal
deriving DecidableEq

/-- The state of the one signal a `connection` can refer to: whether the
signal object is still alive (its destructor has not run) and its slot
vector. -/
structure SignalWorld (α ρ : Type) where
  signalAlive : Bool
  slots : List (Option (α → ρ))

/-- The `connection` class: the weak pointer to the disconnector plus the
stored slot index. -/
structure connection where
  _weak_disconnector : WeakDisc
  _index : Nat
deriving DecidableEq

/-- The default constructor `connection() : _index() \x7b\x7d` (lines 41-43):
empty weak pointer, value-initialised index. -/
def connection.defaultCtor : connection :=
  ⟨.empty, 0⟩

/-- `connection::connected()` (lines 66-68): `!_weak_disconnector.expired()`.
An empty weak pointer is expired; a weak pointer to the signal's shared
disconnector is expired exactly when the signal has been destroyed. -/
def connection.connected (w : SignalWorld α ρ) (c : connection) : Bool :=
  match c._weak_disconnector with
  | .empty => false
  | .toSignal => w.signalAlive

/-- `connection::disconnect()` (lines 518-524):

```cpp
auto ptr = _weak_disconnector.lock();
if( ptr ) \x7b (*ptr)( _index ); \x7d
_weak_disconnector.reset();
```

Locking succeeds only if the weak pointer is non-empty and the signal is
still alive; in that case the disconnector runs `signal.disconnect(_index)`
(whose assertion is modelled by `Option`).  The weak pointer is reset
unconditionally.  Returns the updated world and the updated connection. -/
def connection.disconnect (w : SignalWorld α ρ) (c : connection) :
    Option (SignalWorld α ρ × connection) :=
  match c._weak_disconnector with
  | .empty => some (w, ⟨.empty, c._index⟩)
  | .toSignal =>
    if w.signalAlive then
      (signal_type.disconnect w.slots c._index).map
        (fun slots2 => ({ w with slots := slots2 }, ⟨.empty, c._index⟩))
    else
      some (w, ⟨.empty, c._index⟩)

/-- `connection::connection(connection&&)` (lines 51-54): the target steals
the weak pointer (`std::move` empties the source's weak pointer) and copies
`_index`.  Returns `(target, moved-from source)`. -/
def connection.moveCtor (other : connection) : connection × connection :=
  (⟨other._weak_disconnector, other._index⟩, ⟨.empty, other._index⟩)

/-- `connection::operator=(connection&&)` (lines 58-62): same transfer as
the move constructor; the target's previous weak pointer is dropped without
any disconnection.  Returns `(new target, moved-from source)`. -/
def connection.moveAssign (_tgt other : connection) : connection × connection :=
  (⟨other._weak_disconnector, other._index⟩, ⟨.empty, other._index⟩)

/-- `signal_type::connect` at the world level (lines 366-375): append the
slot and mint a connection whose weak pointer refers to the signal's shared
disconnector and whose index is `_slots.size()-1`. -/
def SignalWorld.connect (w : SignalWorld α ρ) (f : α → ρ) :
    SignalWorld α ρ × connection :=
  let r := signal_type.connect w.slots f
  ({ w with slots := r.1 }, ⟨.toSignal, r.2⟩)

/-- `signal_type::~signal_type()` (lines 334-352) at the world level: after
the destructor has finished, the signal (and its slot vector) is gone and
every weak pointer to its shared disconnector is expired. -/
def SignalWorld.destroy (_w : SignalWorld α ρ) : SignalWorld α ρ :=
  { signalAlive := false, slots := [] }

/-! ## Scoped connections (`scoped_connection`, lines 104-176) -/

/-- `scoped_connection`: wraps exactly one `connection`. -/
structure scoped_connection where
  _connection : connection

/-- `~scoped_connection()` (lines 126-128): `disconnect();`, i.e.
`_connection.disconnect()`.  Only the resulting world is observable. -/
def scoped_connection.dtor (w : SignalWorld α ρ) (sc : scoped_connection) :
    Option (SignalWorld α ρ) :=
  (connection.disconnect w sc._connection).map Prod.fst

/-- `scoped_connection::reset(c)` (lines 144-147): `disconnect();
_connection = std::move(c);`. -/
def scoped_connection.reset (w : SignalWorld α ρ) (sc : scoped_connection)
    (c : connection) : Option (SignalWorld α ρ × scoped_connection) :=
  (connection.disconnect w sc._connection).map (fun p => (p.1, ⟨c⟩))

/-- `scoped_connection::release()` (lines 151-155): move the held connection
out, leave a default-constructed one behind, perform no disconnection. -/
def scoped_connection.release (sc : scoped_connection) :
    connection × scoped_connection :=
  (sc._connection, ⟨connection.defaultCtor⟩)

/-! ## The public-interface protocol (for the assertion-safety claim)

`signal_type::disconnect` is private; the only way client code reaches it
is through `connection::disconnect` (directly or via `scoped_connection`).
`ProtocolState` tracks, next to the slot vector, the indices of the
*unspent* connections: connections whose weak pointer still refers to the
signal (minted by `connect`, disconnect not yet called, not moved-from).
An `Event.disconnect i` event is `connection::disconnect()` on the unique
unspent connection storing index `i`; if no such unspent connection exists
the event models disconnecting a spent, moved-from or default connection,
whose weak pointer is empty (a no-op that never reaches
`signal_type::disconnect`).  Triggering (with or without an accumulator)
does not change the slot vector. -/

structure ProtocolState (α ρ : Type) where
  slots : List (Option (α → ρ))
  outstanding : List Nat

inductive Event (α ρ : Type)
  | connect (f : α → ρ)
  | disconnect (i : Nat)
  | trigger (a : α)

/-- One public-interface operation.  `none` means the assertion inside
`signal_type::disconnect` fired. -/
def protocolStep (s : ProtocolState α ρ) : Event α ρ → Option (ProtocolState α ρ)
  | .connect f =>
    let r := signal_type.connect s.slots f
    some ⟨r.1, s.outstanding ++ [r.2]⟩
  | .disconnect i =>
    if i ∈ s.outstanding then
      (signal_type.disconnect s.slots i).map (fun sl => ⟨sl, s.outstanding.erase i⟩)
    else
      some s
  | .trigger _ => some s

/-- Run a sequence of public-interface operations from a state. -/
def runEvents (s : ProtocolState α ρ) : List (Event α ρ) → Option (ProtocolState α ρ)
  | [] => some s
  | e :: rest =>
    match protocolStep s e with
    | none => none
    | some s2 => runEvents s2 rest

/-- A freshly constructed signal: no slots, no outstanding connections. -/
def initialProtocolState (α ρ : Type) : ProtocolState α ρ :=
  ⟨[], []⟩

/-- The protocol invariant: outstanding connection indices are pairwise
distinct, an index is outstanding exactly when its slot is live, and the
slot vector never ends in a tombstone. -/
def ProtocolInv (s : ProtocolState α ρ) : Prop :=
  s.outstanding.Nodup ∧
  (∀ i, i ∈ s.outstanding ↔ ∃ f, s.slots[i]? = some (some f)) ∧
  s.slots.getLast? ≠ some none

/-! ## Teardown: `~signal_type()` racing `connection::disconnect()`

`~signal_type()` (lines 334-352) runs

```cpp
std::weak_ptr<detail::disconnector> weak{_shared_disconnector};
_shared_disconnector.reset();
while( weak.lock() != nullptr ) { thread_policy::yield_thread(); }
```

while another thread may be inside `connection::disconnect()`
(lines 518-524).  The shared state of the race is the reference count of
the control block of `_shared_disconnector`: the destructor thread holds
one strong reference until its `reset()`, and the disconnecting thread
holds one transient strong reference (`ptr`) between a successful
`_weak_disconnector.lock()` and the end of `connection::disconnect`.
`weak.lock()` succeeds if and only if the strong count is positive at that
instant.  The two program counters determine the strong count, so the
whole interleaving semantics is a step relation on the pair of program
counters. -/

/-- Program counter of the thread running `~signal_type()`. -/
inductive TearPcD
  | beforeReset   -- has not yet executed `_shared_disconnector.reset()`
  | waiting       -- inside the `while( weak.lock() != nullptr )` loop
  | freed         -- loop exited; the signal storage has been freed
deriving DecidableEq

/-- Program counter of the thread running `connection::disconnect()`. -/
inductive TearPcB
  | beforeLock    -- before `auto ptr = _weak_disconnector.lock()`
  | locked        -- lock succeeded; about to run `(*ptr)( _index )`
  | called        -- `(*ptr)( _index )` returned; `ptr` still held
  | finished      -- `ptr` released and `_weak_disconnector.reset()` done
deriving DecidableEq

/-- Does the disconnecting thread currently hold its transient strong
reference `ptr`? -/
def holdsStrongRef : TearPcB → Bool
  | .locked => true
  | .called => true
  | _ => false

structure TearState where
  dpc : TearPcD
  bpc : TearPcB
deriving DecidableEq

/-- One interleaving step: either thread executes its next action.
`weak.lock()` succeeds exactly while the strong count is positive: for the
disconnecting thread (which holds nothing at `beforeLock`), that is while
the destructor has not yet executed `_shared_disconnector.reset()`; for
the destructor''s loop the count is positive exactly while the
disconnecting thread holds `ptr`. -/
inductive TearStep : TearState → TearState → Prop
  | dReset (b : TearPcB) :
      TearStep ⟨.beforeReset, b⟩ ⟨.waiting, b⟩
  | dSpin (b : TearPcB) (h : holdsStrongRef b = true) :
      TearStep ⟨.waiting, b⟩ ⟨.waiting, b⟩
  | dExit (b : TearPcB) (h : holdsStrongRef b = false) :
      TearStep ⟨.waiting, b⟩ ⟨.freed, b⟩
  | bLockSuccess :
      TearStep ⟨.beforeReset, .beforeLock⟩ ⟨.beforeReset, .locked⟩
  | bLockFail (d : TearPcD) (h : d ≠ .beforeReset) :
      TearStep ⟨d, .beforeLock⟩ ⟨d, .finished⟩
  | bCall (d : TearPcD) :
      TearStep ⟨d, .locked⟩ ⟨d, .called⟩
  | bRelease (d : TearPcD) :
      TearStep ⟨d, .called⟩ ⟨d, .finished⟩

/-- Initial state of the race: destructor entered, disconnect entered. -/
def tearInitial : TearState :=
  ⟨.beforeReset, .beforeLock⟩

/-- States reachable under some interleaving of the two threads. -/
inductive TearReachable : TearState → Prop
  | init : TearReachable tearInitial
  | step {s t : TearState} : TearReachable s → TearStep s t → TearReachable t

/-- The teardown invariant: while the disconnecting thread holds its
transient strong reference, the destructor cannot have freed the signal. -/
theorem tearReachable_invariant (s : TearState) (hs : TearReachable s) :
    holdsStrongRef s.bpc = true → s.dpc ≠ TearPcD.freed := by
  induction hs with
  | init => intro h; simp [tearInitial, holdsStrongRef] at h
  | step hr hstep ih =>
    cases hstep with
    | dReset b => intro _; simp
    | dSpin b h => intro _; simp
    | dExit b h => intro hb; rw [h] at hb; cases hb
    | bLockSuccess => intro _; simp
    | bLockFail d h => intro hb; simp [holdsStrongRef] at hb
    | bCall d => intro _; exact ih (by simp [holdsStrongRef])
    | bRelease d => intro hb; simp [holdsStrongRef] at hb

/-! ## The protocol invariant -/

/-- The initial protocol state satisfies the invariant. -/
theorem protocolInv_initial : ProtocolInv (initialProtocolState α ρ) := by
  refine ⟨List.nodup_nil, fun i => ?_, by simp [initialProtocolState]⟩
  simp [initialProtocolState]

/-- Every public-interface operation taken in an invariant state succeeds
(the assertion in `signal_type::disconnect` does not fire) and preserves
the invariant. -/
theorem protocolStep_inv (s : ProtocolState α ρ) (e : Event α ρ)
    (hs : ProtocolInv s) :
    ∃ s2, protocolStep s e = some s2 ∧ ProtocolInv s2 := by
  obtain ⟨hnd, hmem, hlast⟩ := hs
  cases e with
  | connect f =>
    refine ⟨⟨s.slots ++ [some f], s.outstanding ++ [s.slots.length]⟩, ?_, ?_, ?_, ?_⟩
    · simp [protocolStep, signal_type.connect]
    · have hnotmem : s.slots.length ∉ s.outstanding := by
        intro hin
        obtain ⟨f0, hf0⟩ := (hmem _).mp hin
        have := (List.getElem?_eq_some_iff.mp hf0).1
        omega
      rw [List.nodup_append]
      exact ⟨hnd, List.nodup_singleton _, by
        intro a ha hb
        rw [List.mem_singleton] at hb
        exact hnotmem (hb ▸ ha)⟩
    · intro i
      rw [List.mem_append, List.mem_singleton]
      constructor
      · rintro (hin | rfl)
        · obtain ⟨f0, hf0⟩ := (hmem i).mp hin
          have hlt := (List.getElem?_eq_some_iff.mp hf0).1
          exact ⟨f0, by rw [List.getElem?_append_left hlt]; exact hf0⟩
        · exact ⟨f, List.getElem?_concat_length _ _⟩
      · rintro ⟨f0, hf0⟩
        by_cases hi : i < s.slots.length
        · rw [List.getElem?_append_left hi] at hf0
          exact Or.inl ((hmem i).mpr ⟨f0, hf0⟩)
        · have hlen := (List.getElem?_eq_some_iff.mp hf0).1
          simp only [List.length_append, List.length_singleton] at hlen
          right
          omega
    · rw [List.getLast?_concat]
      simp
  | disconnect i =>
    by_cases hin : i ∈ s.outstanding
    · obtain ⟨f0, hf0⟩ := (hmem i).mp hin
      have hlt := (List.getElem?_eq_some_iff.mp hf0).1
      refine ⟨⟨trimTrailing (s.slots.set i none), s.outstanding.erase i⟩, ?_, ?_, ?_, ?_⟩
      · simp only [protocolStep, if_pos hin, signal_type.disconnect_eq, if_pos hlt]
        rfl
      · exact List.Nodup.erase _ hnd
      · intro j
        rw [hnd.mem_erase_iff]
        constructor
        · rintro ⟨hji, hj⟩
          obtain ⟨g, hg⟩ := (hmem j).mp hj
          refine ⟨g, trimTrailing_getElem?_some _ _ _ ?_⟩
          rw [List.getElem?_set_ne (fun h => hji h.symm)]
          exact hg
        · rintro ⟨g, hg⟩
          have hset := trimTrailing_getElem? _ _ _ hg
          have hji : j ≠ i := by
            rintro rfl
            rw [List.getElem?_set_self (by simpa using hlt)] at hset
            exact Option.noConfusion (Option.some.inj hset)
          rw [List.getElem?_set_ne (fun h => hji h.symm)] at hset
          exact ⟨hji, (hmem j).mpr ⟨g, hset⟩⟩
      · exact trimTrailing_getLast? _
    · exact ⟨s, by simp [protocolStep, hin], hnd, hmem, hlast⟩
  | trigger a =>
    exact ⟨s, rfl, hnd, hmem, hlast⟩

/-- Running any event sequence from an invariant state succeeds and ends
in an invariant state. -/
theorem runEvents_inv (evts : List (Event α ρ)) (s : ProtocolState α ρ)
    (hs : ProtocolInv s) :
    ∃ s2, runEvents s evts = some s2 ∧ ProtocolInv s2 := by
  induction evts generalizing s with
  | nil => exact ⟨s, rfl, hs⟩
  | cons e rest ih =>
    obtain ⟨s1, hstep, hs1⟩ := protocolStep_inv s e hs
    obtain ⟨s2, hrun, hs2⟩ := ih s1 hs1
    exact ⟨s2, by simp [runEvents, hstep, hrun], hs2⟩

/-- In an invariant state with no outstanding connection, the slot vector
is empty: all tombstones have been trimmed. -/
theorem ProtocolInv.slots_eq_nil (s : ProtocolState α ρ) (hs : ProtocolInv s)
    (h : s.outstanding = []) : s.slots = [] := by
  obtain ⟨hnd, hmem, hlast⟩ := hs
  by_contra hne
  have hsome : s.slots.getLast?.isSome := List.getLast?_isSome.mpr hne
  obtain ⟨x, hx⟩ := Option.isSome_iff_exists.mp hsome
  cases x with
  | none => exact hlast hx
  | some g =>
    rw [List.getLast?_eq_getElem?] at hx
    have : s.slots.length - 1 ∈ s.outstanding := (hmem _).mpr ⟨g, hx⟩
    rw [h] at this
    exact List.not_mem_nil _ this

/-! ## Trace lemmas for the trigger loop -/

/-- Starting the index counter at `n` shifts every recorded index by `n`. -/
theorem callTrace_shift (a : α) (n : Nat) (slots : List (Option (α → ρ))) :
    signal_type.callTrace a n slots =
      (signal_type.callTrace a 0 slots).map (fun e => (e.1 + n, e.2)) := by
  induction slots generalizing n with
  | nil => rfl
  | cons s rest ih =>
    cases s with
    | none =>
      simp only [signal_type.callTrace]
      rw [ih (n + 1), ih 1, List.map_map]
      congr 1
      funext e
      simp only [Function.comp_apply, Prod.mk.injEq, and_true]
      omega
    | some f =>
      simp only [signal_type.callTrace, List.map_cons]
      rw [ih (n + 1), ih 1, List.map_map]
      congr 1
      · simp
      · congr 1
        funext e
        simp only [Function.comp_apply, Prod.mk.injEq, and_true]
        omega

/-- Membership in the instrumented trace: a call `(i, x, r)` is recorded
exactly when slot `i` holds a live callable `f`, the argument passed was
`a` and the result was `f a`. -/
theorem callTrace_mem (slots : List (Option (α → ρ))) (a : α) (i : Nat)
    (x : α) (r : ρ) :
    (i, x, r) ∈ signal_type.callTrace a 0 slots ↔
      ∃ f, slots[i]? = some (some f) ∧ x = a ∧ r = f a := by
  induction slots generalizing i with
  | nil => simp [signal_type.callTrace]
  | cons s rest ih =>
    cases s with
    | none =>
      have hunf : signal_type.callTrace a 0 (none :: rest) =
          (signal_type.callTrace a 0 rest).map (fun e => (e.1 + 1, e.2)) := by
        simp only [signal_type.callTrace]
        exact callTrace_shift a 1 rest
      rw [hunf]
      cases i with
      | zero =>
        simp only [List.getElem?_cons_zero]
        constructor
        · intro h
          obtain ⟨e, _, heq⟩ := List.mem_map.mp h
          simp only [Prod.mk.injEq] at heq
          omega
        · rintro ⟨f, hf, -, -⟩
          simp at hf
      | succ j =>
        simp only [List.getElem?_cons_succ]
        rw [← ih j]
        constructor
        · intro h
          obtain ⟨⟨e1, e2⟩, he, heq⟩ := List.mem_map.mp h
          simp only [Prod.mk.injEq] at heq
          obtain ⟨h1, h2⟩ := heq
          have he1 : e1 = j := by omega
          subst he1
          rw [← h2]
          exact he
        · intro h
          exact List.mem_map.mpr ⟨(j, x, r), h, by simp⟩
    | some f =>
      have hunf : signal_type.callTrace a 0 (some f :: rest) =
          (0, a, f a) :: (signal_type.callTrace a 0 rest).map (fun e => (e.1 + 1, e.2)) := by
        simp only [signal_type.callTrace]
        rw [callTrace_shift a 1 rest]
      rw [hunf]
      cases i with
      | zero =>
        simp only [List.mem_cons, List.getElem?_cons_zero, Option.some.injEq]
        constructor
        · rintro (heq | hmem)
          · simp only [Prod.mk.injEq] at heq
            exact ⟨f, rfl, heq.2.1, heq.2.2⟩
          · obtain ⟨e, _, heq⟩ := List.mem_map.mp hmem
            simp only [Prod.mk.injEq] at heq
            omega
        · rintro ⟨g, hg, hx, hr⟩
          cases hg
          exact Or.inl (by rw [hx, hr])
      | succ j =>
        simp only [List.mem_cons, List.getElem?_cons_succ]
        rw [← ih j]
        constructor
        · rintro (heq | hmem)
          · simp only [Prod.mk.injEq] at heq
            omega
          · obtain ⟨⟨e1, e2⟩, he, heq⟩ := List.mem_map.mp hmem
            simp only [Prod.mk.injEq] at heq
            obtain ⟨h1, h2⟩ := heq
            have he1 : e1 = j := by omega
            subst he1
            rw [← h2]
            exact he
        · intro h
          exact Or.inr (List.mem_map.mpr ⟨(j, x, r), h, by simp⟩)

/-- The indices in the trace are strictly increasing: the loop performs the
calls in ascending slot order. -/
theorem callTrace_pairwise (slots : List (Option (α → ρ))) (a : α) :
    List.Pairwise (· < ·) ((signal_type.callTrace a 0 slots).map Prod.fst) := by
  induction slots with
  | nil => simp [signal_type.callTrace]
  | cons s rest ih =>
    cases s with
    | none =>
      simp only [signal_type.callTrace]
      rw [callTrace_shift a 1 rest, List.map_map]
      rw [List.pairwise_map]
      rw [List.pairwise_map] at ih
      exact ih.imp (by intro e e2 h; simpa using h)
    | some f =>
      simp only [signal_type.callTrace]
      rw [callTrace_shift a 1 rest, List.map_cons, List.map_map,
        List.pairwise_cons]
      refine ⟨?_, ?_⟩
      · intro b hb
        obtain ⟨e, _, heq⟩ := List.mem_map.mp hb
        simp only [Function.comp_apply] at heq
        omega
      · rw [List.pairwise_map]
        rw [List.pairwise_map] at ih
        exact ih.imp (by intro e e2 h; simpa using h)

/-- The plain trigger loop performs exactly the calls that the instrumented
trace records, in order. -/
theorem call_eq_callTrace (slots : List (Option (α → ρ))) (a : α) :
    signal_type.call a slots =
      (signal_type.callTrace a 0 slots).map (fun e => e.2.2) := by
  induction slots with
  | nil => rfl
  | cons s rest ih =>
    cases s with
    | none =>
      simp only [signal_type.call, signal_type.callTrace]
      rw [callTrace_shift a 1 rest, List.map_map, ih]
      rfl
    | some f =>
      simp only [signal_type.call, signal_type.callTrace, List.map_cons]
      rw [callTrace_shift a 1 rest, List.map_map, ih]
      rfl

theorem liveSlots_cons_none (rest : List (Option (α → ρ))) :
    liveSlots (none :: rest) = liveSlots rest := rfl

theorem liveSlots_cons_some (f : α → ρ) (rest : List (Option (α → ρ))) :
    liveSlots (some f :: rest) = f :: liveSlots rest := rfl

/-- The accumulator loop is the left fold of the accumulation function
over the results of the live slots, in slot order. -/
theorem trigger_with_accumulator_foldl (slots : List (Option (α → ρ)))
    (value : T) (func : T → ρ → T) (a : α) :
    signal_type.trigger_with_accumulator value func a slots =
      (liveSlots slots).foldl (fun acc g => func acc (g a)) value := by
  induction slots generalizing value with
  | nil => rfl
  | cons s rest ih =>
    cases s with
    | none =>
      simp only [signal_type.trigger_with_accumulator, liveSlots_cons_none]
      exact ih value
    | some f =>
      simp only [signal_type.trigger_with_accumulator, liveSlots_cons_some,
        List.foldl_cons]
      exact ih (func value (f a))

/-! ## Shared lemma: the connection returned by `connection::disconnect` -/

/-- After `connection::disconnect()` returns, the connection's weak pointer
has been reset (regardless of which branch was taken). -/
theorem disconnect_result_weak_empty (w : SignalWorld α ρ) (c : connection)
    (w2 : SignalWorld α ρ) (c2 : connection)
    (h : connection.disconnect w c = some (w2, c2)) :
    c2 = ⟨WeakDisc.empty, c._index⟩ := by
  cases hwd : c._weak_disconnector with
  | empty =>
    simp only [connection.disconnect, hwd, Option.some.injEq, Prod.mk.injEq] at h
    exact h.2.symm
  | toSignal =>
    simp only [connection.disconnect, hwd] at h
    by_cases ha : w.signalAlive
    · rw [if_pos ha] at h
      cases hd : signal_type.disconnect w.slots c._index with
      | none => rw [hd] at h; simp at h
      | some sl =>
        rw [hd] at h
        have h2 := Option.some.inj h
        have := congrArg Prod.snd h2
        simpa using this.symm
    · rw [if_neg ha] at h
      have h2 := Option.some.inj h
      have := congrArg Prod.snd h2
      simpa using this.symm

/-! ## The claims -/

/-- **C1** (index stability invariant): for every slot vector and every
in-bounds index `j`, `signal_type::disconnect(j)` succeeds, replaces the
slot at `j` with an empty callable, and only ever shrinks the sequence by
trimming its tail: every slot that is still non-empty afterwards keeps
exactly the index and callable it had before, nothing is shifted, and
`connect` only appends at the end (existing indices are undisturbed and
the minted connection's index addresses the connected callable). -/
theorem claim1_index_stability (slots : List (Option (α → ρ))) (j : Nat)
    (hj : j < slots.length) :
    ∃ slots2, signal_type.disconnect slots j = some slots2 ∧
      slots2.length ≤ slots.length ∧
      (∀ g, slots2[j]? ≠ some (some g)) ∧
      (∀ (i : Nat) (v : Option (α → ρ)), slots2[i]? = some v → v ≠ none → slots[i]? = some v) ∧
      (∀ i f, i ≠ j → slots[i]? = some (some f) → slots2[i]? = some (some f)) ∧
      (∀ f : α → ρ, (signal_type.connect slots f).2 = slots.length ∧
        (∀ i, i < slots.length → ((signal_type.connect slots f).1)[i]? = slots[i]?) ∧
        ((signal_type.connect slots f).1)[slots.length]? = some (some f)) := by
  refine ⟨trimTrailing (slots.set j none), ?_, ?_, ?_, ?_, ?_, ?_⟩
  · rw [signal_type.disconnect_eq, if_pos hj]
  · calc (trimTrailing (slots.set j none)).length
        ≤ (slots.set j none).length := trimTrailing_length_le _
      _ = slots.length := List.length_set ..
  · intro g hg
    have hset := trimTrailing_getElem? _ _ _ hg
    rw [List.getElem?_set_self (by simpa using hj)] at hset
    simp at hset
  · intro i v hv hvne
    have hset := trimTrailing_getElem? _ _ _ hv
    by_cases hij : i = j
    · subst hij
      rw [List.getElem?_set_self (by simpa using hj)] at hset
      exact absurd (Option.some.inj hset).symm hvne
    · rw [List.getElem?_set_ne (Ne.symm hij)] at hset
      exact hset
  · intro i f hij hf
    apply trimTrailing_getElem?_some
    rw [List.getElem?_set_ne (Ne.symm hij)]
    exact hf
  · intro f
    refine ⟨by simp [signal_type.connect], ?_, ?_⟩
    · intro i hi
      simp only [signal_type.connect]
      exact List.getElem?_append_left hi
    · simp only [signal_type.connect]
      exact List.getElem?_concat_length _ _

/-- Witness for C1 at a concrete two-slot signal, disconnecting index 0. -/
theorem claim1_witness :
    ∃ slots2,
      signal_type.disconnect [some (fun n : Nat => n), some (fun n : Nat => n + 1)] 0 =
        some slots2 ∧
      slots2.length ≤
        ([some (fun n : Nat => n), some (fun n : Nat => n + 1)] : List (Option (Nat → Nat))).length ∧
      (∀ g, slots2[0]? ≠ some (some g)) ∧
      (∀ (i : Nat) (v : Option (Nat → Nat)), slots2[i]? = some v → v ≠ none →
        ([some (fun n : Nat => n), some (fun n : Nat => n + 1)] : List (Option (Nat → Nat)))[i]? = some v) ∧
      (∀ i f, i ≠ 0 →
        ([some (fun n : Nat => n), some (fun n : Nat => n + 1)] : List (Option (Nat → Nat)))[i]? = some (some f) →
        slots2[i]? = some (some f)) ∧
      (∀ f : Nat → Nat,
        (signal_type.connect [some (fun n : Nat => n), some (fun n : Nat => n + 1)] f).2 =
          ([some (fun n : Nat => n), some (fun n : Nat => n + 1)] : List (Option (Nat → Nat))).length ∧
        (∀ i, i < ([some (fun n : Nat => n), some (fun n : Nat => n + 1)] : List (Option (Nat → Nat))).length →
          ((signal_type.connect [some (fun n : Nat => n), some (fun n : Nat => n + 1)] f).1)[i]? =
            ([some (fun n : Nat => n), some (fun n : Nat => n + 1)] : List (Option (Nat → Nat)))[i]?) ∧
        ((signal_type.connect [some (fun n : Nat => n), some (fun n : Nat => n + 1)] f).1)[
          ([some (fun n : Nat => n), some (fun n : Nat => n + 1)] : List (Option (Nat → Nat))).length]? =
          some (some f)) :=
  claim1_index_stability [some (fun n : Nat => n), some (fun n : Nat => n + 1)] 0
    (by simp)

/-- **C2** (trigger completeness and order): invoking the signal's
function-call operator calls exactly the slots whose stored callable is
non-empty, in ascending index order, passing every called slot the same
argument; tombstone slots are skipped.  The instrumented trace
`callTrace` records `(index, argument, result)` for each performed call:
membership in the trace characterises exactly the live slots, the traced
indices are strictly increasing, and the plain loop performs exactly the
traced calls in order. -/
theorem claim2_trigger_completeness_order (slots : List (Option (α → ρ))) (a : α) :
    (∀ i x r, (i, x, r) ∈ signal_type.callTrace a 0 slots ↔
        ∃ f, slots[i]? = some (some f) ∧ x = a ∧ r = f a) ∧
    List.Pairwise (· < ·) ((signal_type.callTrace a 0 slots).map Prod.fst) ∧
    signal_type.call a slots = (signal_type.callTrace a 0 slots).map (fun e => e.2.2) :=
  ⟨fun i x r => callTrace_mem slots a i x r, callTrace_pairwise slots a,
    call_eq_callTrace slots a⟩

/-- **C3** (fold correctness of accumulate): invoking the proxy returned by
`accumulate(init, op)` with an argument returns the left fold of `op` over
the results of the live slots in connection order, starting from `init`;
empty slots contribute nothing. -/
theorem claim3_accumulate_left_fold (slots : List (Option (α → ρ)))
    (init : T) (op : T → ρ → T) (a : α) :
    (signal_type.accumulate slots init op).callOp a =
      (liveSlots slots).foldl (fun acc g => op acc (g a)) init :=
  trigger_with_accumulator_foldl slots init op a

/-- **C4** (idempotence of `connection::disconnect`): the first call
resolves the weak reference, invokes the disconnector with the stored
index if the signal is alive, and unconditionally clears the weak
reference; a second call on the resulting connection returns the world
unchanged (and the connection unchanged). -/
theorem claim4_disconnect_idempotent (w : SignalWorld α ρ) (c : connection)
    (w2 : SignalWorld α ρ) (c2 : connection)
    (h : connection.disconnect w c = some (w2, c2)) :
    connection.disconnect w2 c2 = some (w2, c2) := by
  have hc2 := disconnect_result_weak_empty w c w2 c2 h
  subst hc2
  rfl

/-- Witness for C4: disconnecting a live one-slot connection, then
disconnecting the spent connection again, changes nothing. -/
theorem claim4_witness :
    connection.disconnect (⟨true, []⟩ : SignalWorld Nat Nat) ⟨WeakDisc.empty, 0⟩ =
      some (⟨true, []⟩, ⟨WeakDisc.empty, 0⟩) :=
  claim4_disconnect_idempotent ⟨true, [some (fun n => n)]⟩ ⟨WeakDisc.toSignal, 0⟩
    ⟨true, []⟩ ⟨WeakDisc.empty, 0⟩ rfl

/-- **C5** (weak-liveness of `connected()`): `connected()` is true
immediately after `connect` on a live signal, false immediately after
`disconnect()` has been called on that connection, and false after the
owning signal has been destroyed; a default-constructed connection always
reports false and its `disconnect()` is a no-op. -/
theorem claim5_weak_liveness (w : SignalWorld α ρ) (f : α → ρ) (c : connection)
    (w2 : SignalWorld α ρ) (c2 : connection) :
    (w.signalAlive = true →
      connection.connected (SignalWorld.connect w f).1 (SignalWorld.connect w f).2 = true) ∧
    (connection.disconnect w c = some (w2, c2) →
      connection.connected w2 c2 = false) ∧
    connection.connected (SignalWorld.destroy w) c = false ∧
    connection.connected w connection.defaultCtor = false ∧
    connection.disconnect w connection.defaultCtor = some (w, connection.defaultCtor) := by
  refine ⟨?_, ?_, ?_, rfl, rfl⟩
  · intro ha
    simp [SignalWorld.connect, connection.connected, ha]
  · intro h
    have hc2 := disconnect_result_weak_empty w c w2 c2 h
    subst hc2
    rfl
  · cases hc : c._weak_disconnector <;>
      simp [connection.connected, SignalWorld.destroy, hc]

/-- Witness for C5 at a concrete one-slot signal. -/
theorem claim5_witness :
    connection.connected
        (SignalWorld.connect (⟨true, [some (fun n : Nat => n)]⟩ : SignalWorld Nat Nat)
          (fun n => n + 1)).1
        (SignalWorld.connect (⟨true, [some (fun n : Nat => n)]⟩ : SignalWorld Nat Nat)
          (fun n => n + 1)).2 = true ∧
    connection.connected (⟨true, []⟩ : SignalWorld Nat Nat) ⟨WeakDisc.empty, 0⟩ = false ∧
    connection.connected
      (SignalWorld.destroy (⟨true, [some (fun n : Nat => n)]⟩ : SignalWorld Nat Nat))
      ⟨WeakDisc.toSignal, 0⟩ = false ∧
    connection.connected (⟨true, [some (fun n : Nat => n)]⟩ : SignalWorld Nat Nat)
      connection.defaultCtor = false ∧
    connection.disconnect (⟨true, [some (fun n : Nat => n)]⟩ : SignalWorld Nat Nat)
      connection.defaultCtor =
      some (⟨true, [some (fun n : Nat => n)]⟩, connection.defaultCtor) :=
  have t := claim5_weak_liveness (⟨true, [some (fun n : Nat => n)]⟩ : SignalWorld Nat Nat)
    (fun n => n + 1) ⟨WeakDisc.toSignal, 0⟩ ⟨true, []⟩ ⟨WeakDisc.empty, 0⟩
  ⟨t.1 rfl, t.2.1 rfl, t.2.2.1, t.2.2.2.1, t.2.2.2.2⟩

/-- Triggering skips tombstones: if every slot is a tombstone, the trigger
loop performs no call. -/
theorem call_all_none (a : α) (slots : List (Option (α → ρ)))
    (hall : ∀ s ∈ slots, s = none) : signal_type.call a slots = [] := by
  induction slots with
  | nil => rfl
  | cons s rest ih =>
    have hs := hall s (List.mem_cons_self _ _)
    subst hs
    simp only [signal_type.call]
    exact ih (fun t ht => hall t (List.mem_cons_of_mem _ ht))

/-- **C6** (out-of-bounds disconnect is a fatal assertion, unreachable
under the protocol): `signal_type::disconnect` fails its assertion exactly
when the index is not strictly below the current slot-vector length, and
under every sequence of public-interface operations starting from a fresh
signal, every index that reaches `signal_type::disconnect` is in bounds at
the moment of the call, so the assertion never fires and the run always
succeeds. -/
theorem claim6_assert_unreachable (α ρ : Type) :
    (∀ (slots : List (Option (α → ρ))) (index : Nat),
        (signal_type.disconnect slots index = none ↔ slots.length ≤ index)) ∧
    (∀ evts : List (Event α ρ),
        (runEvents (initialProtocolState α ρ) evts).isSome = true) := by
  constructor
  · intro slots index
    rw [signal_type.disconnect_eq]
    by_cases h : index < slots.length
    · rw [if_pos h]
      constructor
      · intro hh
        exact absurd hh (by simp)
      · intro hh
        exact absurd hh (by omega)
    · rw [if_neg h]
      simp only [true_iff]
      omega
  · intro evts
    obtain ⟨s2, hrun, -⟩ := runEvents_inv evts _ protocolInv_initial
    simp [hrun]

/-- **C7** (tombstones settle to zero): triggering an empty signal performs
no call; triggering a signal whose slots are all tombstones performs no
call; and after any public-interface run in which every minted connection
has been disconnected (no outstanding connection remains), the slot
vector's length is 0 — the last disconnect's tail-trimming loop removed
every remaining tombstone. -/
theorem claim7_tombstones_settle (a : α) (slots : List (Option (α → ρ)))
    (evts : List (Event α ρ)) (s2 : ProtocolState α ρ) :
    signal_type.call a ([] : List (Option (α → ρ))) = [] ∧
    ((∀ s ∈ slots, s = none) → signal_type.call a slots = []) ∧
    (runEvents (initialProtocolState α ρ) evts = some s2 → s2.outstanding = [] →
      s2.slots = []) := by
  refine ⟨rfl, call_all_none a slots, ?_⟩
  intro hrun hout
  obtain ⟨s3, hrun2, hinv⟩ := runEvents_inv evts _ protocolInv_initial
  rw [hrun] at hrun2
  obtain rfl : s2 = s3 := Option.some.inj hrun2
  exact ProtocolInv.slots_eq_nil s2 hinv hout

/-- Witness for C7: a run that connects one slot and disconnects it ends
with an empty slot vector. -/
theorem claim7_witness :
    signal_type.call 5 ([] : List (Option (Nat → Nat))) = [] ∧
    signal_type.call 5 ([none, none] : List (Option (Nat → Nat))) = [] ∧
    (⟨[], []⟩ : ProtocolState Nat Nat).slots = [] :=
  have t := claim7_tombstones_settle 5 ([none, none] : List (Option (Nat → Nat)))
    [Event.connect (fun n => n), Event.disconnect 0] (⟨[], []⟩ : ProtocolState Nat Nat)
  ⟨t.1, t.2.1 (by intro s hs; simp only [List.mem_cons, List.not_mem_nil, or_false] at hs; rcases hs with h | h <;> exact h),
    t.2.2 rfl rfl⟩

/-- **C8** (destroy-vs-disconnect teardown safety): in every interleaving
of the destructor thread and a disconnecting thread, whenever the
disconnecting thread holds its transient strong lock on the shared
disconnector (in particular while it is dereferencing the signal inside
`(*ptr)( _index )`), the destructor has not freed the signal: the
destructor's spin-wait cannot exit while the lock is held, so the
disconnect never touches a destroyed signal. -/
theorem claim8_teardown_safety (s : TearState) (hs : TearReachable s)
    (hb : s.bpc = TearPcB.locked ∨ s.bpc = TearPcB.called) :
    s.dpc ≠ TearPcD.freed := by
  apply tearReachable_invariant s hs
  rcases hb with h | h <;> rw [h] <;> rfl

/-- Witness for C8: the state in which the disconnecting thread has locked
the weak pointer (and is about to dereference the signal) is reachable,
and there the signal is not freed. -/
theorem claim8_witness :
    (⟨TearPcD.beforeReset, TearPcB.locked⟩ : TearState).dpc ≠ TearPcD.freed :=
  claim8_teardown_safety ⟨TearPcD.beforeReset, TearPcB.locked⟩
    (TearReachable.step TearReachable.init TearStep.bLockSuccess)
    (Or.inl rfl)

/-- **C9** (scoped connection RAII): the destructor and `reset` disconnect
the currently held connection exactly once (their effect on the world is
exactly one `connection::disconnect` of the held connection, with `reset`
then adopting the new connection), while `release` returns the held
connection without disconnecting it and leaves a default (disconnected)
connection behind, so destroying the scoped connection after `release`
leaves every signal unchanged. -/
theorem claim9_scoped_connection_raii (w : SignalWorld α ρ)
    (sc : scoped_connection) (c : connection) :
    scoped_connection.dtor w sc = (connection.disconnect w sc._connection).map Prod.fst ∧
    scoped_connection.reset w sc c =
      (connection.disconnect w sc._connection).map (fun p => (p.1, ⟨c⟩)) ∧
    (scoped_connection.release sc).1 = sc._connection ∧
    (scoped_connection.release sc).2 = ⟨connection.defaultCtor⟩ ∧
    scoped_connection.dtor w (scoped_connection.release sc).2 = some w :=
  ⟨rfl, rfl, rfl, rfl, rfl⟩

/-- **C10** (moved-from connections are disconnected): after a move
construction or move assignment from `c`, the moved-from connection
reports `connected() = false` and its `disconnect()` leaves the world
unchanged, while the move target takes over exactly `c`'s weak pointer
(hence its liveness state) and slot index. -/
theorem claim10_moved_from_disconnected (w : SignalWorld α ρ) (c tgt : connection) :
    connection.connected w (connection.moveCtor c).2 = false ∧
    connection.disconnect w (connection.moveCtor c).2 =
      some (w, (connection.moveCtor c).2) ∧
    (connection.moveCtor c).1 = c ∧
    connection.connected w (connection.moveAssign tgt c).2 = false ∧
    connection.disconnect w (connection.moveAssign tgt c).2 =
      some (w, (connection.moveAssign tgt c).2) ∧
    (connection.moveAssign tgt c).1 = c ∧
    connection.connected w (connection.moveAssign tgt c).1 = connection.connected w c :=
  ⟨rfl, rfl, rfl, rfl, rfl, rfl, rfl⟩

end Nod
